import Mathlib

/-!
Verification development for the distributed tweet-counting program
`tute_demo.py` (MPI master/worker pattern-counting over a csv stream of
serialized tweets).

The Python source is shallowly embedded below.  Python dictionaries used
as count tables become association lists updated with Python assignment
semantics (`dinsert`), Python's substring operator `in` becomes `pyIn`,
exceptions become an explicit `Except PyErr` result, and the two regular
expressions actually used by the program (`@\w+` / `#\w+` token
extraction and word-boundary literal search) become the executable
matcher `findall`.  The csv layer is out of scope: an input stream is
modelled as the list of `value` fields of its rows, in order.
-/

namespace TuteDemo

/-- CountTable models a Python dict mapping matched pattern strings to
counts: an association list in insertion order with unique keys. -/
def CountTable := List (String × Nat)

instance : DecidableEq CountTable := by
  unfold CountTable
  exact inferInstance

/-- Lookup of a key in a count table, `none` when absent
(models `k in d` / `d[k]` on a Python dict). -/
def lookupT : CountTable → String → Option Nat
  | [], _ => none
  | (k0, v0) :: t, k => if k = k0 then some v0 else lookupT t k

/-- Value of a key with default 0 (models `d.setdefault(k, 0)` as used by
the source, whose inserted 0 is always immediately overwritten). -/
def getD (t : CountTable) (k : String) : Nat := (lookupT t k).getD 0

/-- Boolean key-membership test. -/
def hasKey (t : CountTable) (k : String) : Bool := (lookupT t k).isSome

/-- Python dict assignment `d[k] = v`: update in place when the key is
present, append at the end otherwise. -/
def dinsert : CountTable → String → Nat → CountTable
  | [], k, v => [(k, v)]
  | (k0, v0) :: t, k, v =>
    if k = k0 then (k0, v) :: t else (k0, v0) :: dinsert t k v

/-- Merge Engine: the loop `for k, v in b.items(): a[k] = a.setdefault(k, 0) + v`
that appears both in `process_tweet` (lines 143-144) and in
`master_tweet_processor` (lines 192-194). -/
def mergeCounts (a b : CountTable) : CountTable :=
  b.foldl (fun acc kv => dinsert acc kv.1 (getD acc kv.1 + kv.2)) a

/-- A count table is a faithful image of a Python dict when its keys are
unique (Python dicts cannot hold duplicate keys). -/
def NodupKeys (t : CountTable) : Prop := (t.map Prod.fst).Nodup

/-- Python `==` on dicts: equality of the underlying key-value mapping,
insertion order ignored. -/
def dictEq (a b : CountTable) : Prop := ∀ k, lookupT a k = lookupT b k

/-- Total count contributed to key `k` by the entries of `b`
(coincides with `getD b k` when keys of `b` are unique). -/
def sumKey : CountTable → String → Nat
  | [], _ => 0
  | (k0, v0) :: t, k => (if k = k0 then v0 else 0) + sumKey t k

/-- Number of occurrences of a string in a list of matches. -/
def countOcc : List String → String → Nat
  | [], _ => 0
  | s :: t, k => (if s = k then 1 else 0) + countOcc t k

/-- listStarts n l is true when n is an initial segment of l. -/
def listStarts : List Char → List Char → Bool
  | [], _ => true
  | _ :: _, [] => false
  | a :: as, b :: bs => a = b && listStarts as bs

/-- listInside n l is true when n occurs contiguously inside l. -/
def listInside (n : List Char) : List Char → Bool
  | [] => n.isEmpty
  | c :: rest => listStarts n (c :: rest) || listInside n rest

/-- Python's substring operator `a in b` on strings. -/
def pyIn (a b : String) : Bool := listInside a.toList b.toList

/-- Word character of the regexes' `\w` class (alphanumerics and
underscore; the program's patterns are ASCII). -/
def isWordChar (c : Char) : Bool := c.isAlphanum || c = '_'

/-- Longest run of word characters at the head of the text
(the greedy `\w+` step). -/
def grabTok : List Char → List Char
  | [] => []
  | c :: rest => if isWordChar c then c :: grabTok rest else []

/-- Text remaining after the longest head run of word characters. -/
def restAfterTok : List Char → List Char
  | [] => []
  | c :: rest => if isWordChar c then restAfterTok rest else c :: rest

/-- Left-to-right non-overlapping scan of `re.findall` for the patterns
`@\w+` / `#\w+`: at each position a match needs the marker symbol
followed by at least one word character; on failure the scan advances by
one character.  Fuel equals the text length, which one-character progress
per step never exhausts. -/
def findTokensGo (sym : Char) : Nat → List Char → List String
  | 0, _ => []
  | _ + 1, [] => []
  | fuel + 1, c :: rest =>
    if c = sym then
      if grabTok rest = [] then
        findTokensGo sym fuel rest
      else
        String.mk (sym :: grabTok rest) :: findTokensGo sym fuel (restAfterTok rest)
    else
      findTokensGo sym fuel rest

/-- Boundary test before a match of a word-character query: start of
text or a preceding non-word character. -/
def boundaryB : Option Char → Bool
  | none => true
  | some p => !isWordChar p

/-- Boundary test after a match of a word-character query: end of text
or a following non-word character. -/
def tailOK : List Char → Bool
  | [] => true
  | d :: _ => !isWordChar d

/-- Left-to-right non-overlapping scan of `re.findall` for the pattern
`\b` ++ q ++ `\b` built by the `string_search` mode, faithful for a
nonempty query consisting of word characters (the source interpolates
the query into the regex unescaped, so other queries are not matched
literally).  `prev` is the character before the current position. -/
def findWordGo (q : List Char) : Nat → Option Char → List Char → List String
  | 0, _, _ => []
  | _ + 1, _, [] => []
  | fuel + 1, prev, c :: rest =>
    if (!q.isEmpty && boundaryB prev && listStarts q (c :: rest)
        && tailOK (List.drop q.length (c :: rest))) = true then
      String.mk q :: findWordGo q fuel (some (q.getLastD c)) (List.drop q.length (c :: rest))
    else
      findWordGo q fuel (some c) rest

/-- Shapes of the regular expressions the program builds. -/
inductive Regex where
  | tokenAfter (sym : Char)
  | wordQuery (q : String)

/-- TOPIC_REGEX = `#\w+` (line 9). -/
def TOPIC_REGEX : Regex := .tokenAfter '#'

/-- MENTION_REGEX = `@\w+` (line 10). -/
def MENTION_REGEX : Regex := .tokenAfter '@'

/-- MASTER_RANK = 0 (line 11). -/
def MASTER_RANK : Nat := 0

/-- re.findall over the text for the two regex shapes the program uses. -/
def findall (r : Regex) (s : String) : List String :=
  match r with
  | .tokenAfter sym => findTokensGo sym s.toList.length s.toList
  | .wordQuery q => findWordGo q.toList s.toList.length none s.toList

/-- A decoded tweet record; the counting core reads only its `text`
field (`tweet['text']`, line 22). -/
structure Tweet where
  text : String
deriving DecidableEq

/-- Python exceptions that the embedded fragment can raise.
`nameError` also stands for `UnboundLocalError`, its subclass. -/
inductive PyErr where
  | valueError
  | attributeError
  | nameError
  | typeError
deriving DecidableEq

/-- count_regex (lines 14-25): `counts = {}` then
`counts[occ] = counts.setdefault(occ, 0) + 1` for each match. -/
def count_regex (tweet : Tweet) (r : Regex) : CountTable :=
  (findall r tweet.text).foldl
    (fun counts occurrence => dinsert counts occurrence (getD counts occurrence + 1)) []

/-- trending_topics (lines 28-34). -/
def trending_topics (tweet : Tweet) : CountTable := count_regex tweet TOPIC_REGEX

/-- user_mentions (lines 37-43). -/
def user_mentions (tweet : Tweet) : CountTable := count_regex tweet MENTION_REGEX

/-- json.load applied to a `str` value (line 54): `json.load` calls
`.read()` on its argument, and a `str` has no `read` attribute, so it
raises AttributeError before looking at the content. -/
def json_load_str : String → Except PyErr Tweet :=
  fun _ => .error .attributeError

/-- tweet_to_json (lines 46-55): two total `re.sub` rewrites of the raw
payload followed by `json.load` on the resulting `str`, which raises
AttributeError regardless of the payload, so the rewrites are left
abstract. -/
def tweet_to_json (tweet : String) : Except PyErr Tweet :=
  json_load_str tweet

/-- process_tweet (lines 134-146): mode dispatch via Python's substring
test `stype in '...'`; when no branch is taken, the final loop reads the
unbound local `results` and raises (UnboundLocal/Name)Error. -/
def process_tweet (counts : CountTable) (stype squery : String) (tweet : Tweet) :
    Except PyErr CountTable :=
  if pyIn stype "mentions" = true then
    .ok (mergeCounts counts (user_mentions tweet))
  else if pyIn stype "topic" = true then
    .ok (mergeCounts counts (trending_topics tweet))
  else if pyIn stype "string_search" = true then
    .ok (mergeCounts counts (count_regex tweet (Regex.wordQuery squery)))
  else
    .error .nameError

/-- Value of the loop-carried local variable `tweet` in process_tweets:
unbound before the first owned record, then a raw payload string, then
(were decoding ever to succeed) a parsed record. -/
inductive TwVar where
  | raw (s : String)
  | parsed (t : Tweet)
deriving DecidableEq

/-- Applying tweet_to_json to the current value of the `tweet` variable:
on a raw payload it behaves as `tweet_to_json`; on an already-parsed
record `re.sub` rejects the non-string argument with TypeError. -/
def decodeVar : TwVar → Except PyErr Tweet
  | .raw s => tweet_to_json s
  | .parsed _ => .error .typeError

/-- Loop body of process_tweets (lines 155-162), iterated over the
enumerated stream.  The partition test only guards the assignment
`tweet = line['value']`; the decode-and-count `try` block below it runs
on every index, on whatever the variable `tweet` currently holds
(unbound at rank ≥ 1 before its first owned record).  Only ValueError is
caught by the inner handler; any other exception escapes the function
(the outer handler catches only csv.Error). -/
def process_tweets_go (rank n : Nat) (stype squery : String) :
    Nat → Option TwVar → CountTable → List String → Except PyErr CountTable
  | _, _, occ, [] => .ok occ
  | i, tw, occ, line :: rest =>
    let tw1 : Option TwVar := if i % n = rank then some (.raw line) else tw
    match tw1 with
    | none => .error .nameError
    | some tv =>
      match decodeVar tv with
      | .error e =>
        if e = .valueError then
          process_tweets_go rank n stype squery (i + 1) (some tv) occ rest
        else
          .error e
      | .ok parsed =>
        match process_tweet occ stype squery parsed with
        | .error e =>
          if e = .valueError then
            process_tweets_go rank n stype squery (i + 1) (some (.parsed parsed)) occ rest
          else
            .error e
        | .ok occ2 =>
          process_tweets_go rank n stype squery (i + 1) (some (.parsed parsed)) occ2 rest

/-- process_tweets (lines 149-166) over the stream of `value` fields. -/
def process_tweets (rank n : Nat) (stype squery : String) (stream : List String) :
    Except PyErr CountTable :=
  process_tweets_go rank n stype squery 0 none [] stream

/-- Message payloads on the MPI channels used by the program. -/
inductive MMsg where
  | returnData
  | exitCmd
  | table (t : CountTable)
deriving DecidableEq

/-- Communication events of the coordinator, in program order. -/
inductive MEvent where
  | send (dest tag : Nat) (m : MMsg)
  | recv (source tag : Nat)
deriving DecidableEq

/-- marshall_tweet (lines 169-179): one loop sending `return_data` to
every other rank, then one loop receiving each response in rank order.
`resp i` is the table worker `i` answers with; the result pairs the
event trace with the received tables in arrival order. -/
def marshall_tweet (n : Nat) (resp : Nat → CountTable) : List MEvent × List CountTable :=
  let sends := (List.range (n - 1)).foldl
    (fun evs i => evs ++ [MEvent.send (i + 1) (i + 1) MMsg.returnData]) []
  let recvs := (List.range (n - 1)).foldl
    (fun (p : List MEvent × List CountTable) i =>
      (p.1 ++ [MEvent.recv (i + 1) MASTER_RANK], p.2 ++ [resp (i + 1)])) ([], [])
  (sends ++ recvs.1, recvs.2)

/-- master_tweet_processor (lines 182-201): count the rank-0 partition,
and when more than one process exists, marshall the workers' tables,
fold them into the running total, and send `exit` to every worker.
Returns the final table together with the coordinator's message trace
(`print_output` is presentation, out of scope). -/
def master_tweet_processor (n : Nat) (resp : Nat → CountTable) (stype squery : String)
    (stream : List String) : Except PyErr (CountTable × List MEvent) :=
  match process_tweets MASTER_RANK n stype squery stream with
  | .error e => .error e
  | .ok occ =>
    if 1 < n then
      let mr := marshall_tweet n resp
      let occ2 := mr.2.foldl mergeCounts occ
      let exits := (List.range (n - 1)).foldl
        (fun evs i => evs ++ [MEvent.send (i + 1) (i + 1) MMsg.exitCmd]) []
      .ok (occ2, mr.1 ++ exits)
    else
      .ok (occ, [])

/-- Values a worker can receive on its command channel (`comm.recv` can
deliver any object; strings are the only commands the code reacts to). -/
inductive Msg where
  | str (s : String)
  | table (t : CountTable)
  | num (n : Int)
deriving DecidableEq

/-- Observable actions of a worker: the diagnostic print of how many
keys it returns, the send of its table, and process exit with a status
code. -/
inductive WEvent where
  | log (n : Nat)
  | send (dest tag : Nat) (t : CountTable)
  | exited (code : Nat)
deriving DecidableEq

/-- Outcome of one iteration of the worker's command loop. -/
inductive StepRes where
  | reply
  | halt (code : Nat)
  | skip
deriving DecidableEq

/-- Command dispatch of slave_tweet_processor (lines 220-227): only
strings are examined, and the tests are Python substring tests
`in_comm in 'return_data'` / `in_comm in 'exit'`. -/
def slave_step : Msg → StepRes
  | .str c =>
    if pyIn c "return_data" = true then .reply
    else if pyIn c "exit" = true then .halt 0
    else .skip
  | _ => .skip

/-- Command loop of slave_tweet_processor (lines 218-227) run against a
list of incoming messages, producing the worker's observable events: on
`reply` it logs `len(counts)` and sends its table to rank 0 with tag
MASTER_RANK, then keeps looping; on `halt` it exits immediately; any
other message is silently skipped. -/
def slave_loop (counts : CountTable) : List Msg → List WEvent
  | [] => []
  | m :: msgs =>
    match slave_step m with
    | .reply =>
      .log counts.length :: .send MASTER_RANK MASTER_RANK counts :: slave_loop counts msgs
    | .halt code => [.exited code]
    | .skip => slave_loop counts msgs

/-! Lemmas about the count-table primitives. -/

theorem lookupT_dinsert (t : CountTable) (k : String) (v : Nat) (k' : String) :
    lookupT (dinsert t k v) k' = if k' = k then some v else lookupT t k' := by
  induction t with
  | nil => simp [dinsert, lookupT]
  | cons hd tl ih =>
    obtain ⟨k0, v0⟩ := hd
    by_cases h : k = k0
    · subst h
      simp only [dinsert, if_pos rfl, lookupT]
      split_ifs <;> rfl
    · simp only [dinsert, if_neg h, lookupT, ih]
      split_ifs with h1 h2 <;> simp_all

theorem getD_dinsert (t : CountTable) (k : String) (v : Nat) (k' : String) :
    getD (dinsert t k v) k' = if k' = k then v else getD t k' := by
  simp only [getD, lookupT_dinsert]
  split_ifs <;> rfl

theorem hasKey_iff_mem (t : CountTable) (k : String) :
    hasKey t k = true ↔ k ∈ t.map Prod.fst := by
  induction t with
  | nil => simp [hasKey, lookupT]
  | cons hd tl ih =>
    obtain ⟨k0, v0⟩ := hd
    by_cases h : k = k0
    · simp [hasKey, lookupT, h]
    · simp only [hasKey, lookupT, if_neg h, List.map_cons, List.mem_cons]
      simp only [hasKey] at ih
      simp [ih, h]

theorem sumKey_eq_zero (t : CountTable) (k : String) (h : hasKey t k = false) :
    sumKey t k = 0 := by
  induction t with
  | nil => rfl
  | cons hd tl ih =>
    obtain ⟨k0, v0⟩ := hd
    by_cases hk : k = k0
    · subst hk; simp [hasKey, lookupT] at h
    · simp [hasKey, lookupT, hk] at h
      simp [sumKey, hk, ih (by simpa [hasKey] using h)]

theorem lookupT_eq_getD (t : CountTable) (k : String) :
    lookupT t k = if hasKey t k = true then some (getD t k) else none := by
  unfold hasKey getD
  cases h : lookupT t k <;> simp [h]

theorem mergeCounts_cons (a : CountTable) (k : String) (v : Nat) (b : CountTable) :
    mergeCounts a ((k, v) :: b) = mergeCounts (dinsert a k (getD a k + v)) b := rfl

theorem lookupT_mergeCounts (b a : CountTable) (k : String) :
    lookupT (mergeCounts a b) k =
      if hasKey b k = true then some (getD a k + sumKey b k) else lookupT a k := by
  induction b generalizing a with
  | nil => simp [mergeCounts, hasKey, lookupT]
  | cons hd b' ih =>
    obtain ⟨k0, v0⟩ := hd
    rw [mergeCounts_cons, ih]
    unfold hasKey
    by_cases h : k = k0
    · subst h
      simp only [lookupT, if_pos rfl, Option.isSome_some, if_true, sumKey,
        getD_dinsert, lookupT_dinsert]
      cases hb : lookupT b' k with
      | none =>
        have hz := sumKey_eq_zero b' k (by simp [hasKey, hb])
        simp [hb, hz]
      | some w => simp [hb, Nat.add_assoc]
    · simp only [lookupT, if_neg h, sumKey, getD_dinsert, lookupT_dinsert]
      simp [h]

theorem hasKey_mergeCounts (a b : CountTable) (k : String) :
    hasKey (mergeCounts a b) k = (hasKey a k || hasKey b k) := by
  unfold hasKey
  rw [lookupT_mergeCounts]
  cases hb : lookupT b k with
  | none => simp [hasKey, hb]
  | some w => simp [hasKey, hb]

theorem getD_mergeCounts_sum (a b : CountTable) (k : String) :
    getD (mergeCounts a b) k = getD a k + sumKey b k := by
  unfold getD
  rw [lookupT_mergeCounts]
  cases hb : lookupT b k with
  | none =>
    have hz := sumKey_eq_zero b k (by simp [hasKey, hb])
    simp [hasKey, hb, hz, getD]
  | some w => simp [hasKey, hb, getD]

theorem sumKey_eq_getD (b : CountTable) (hb : NodupKeys b) (k : String) :
    sumKey b k = getD b k := by
  induction b with
  | nil => rfl
  | cons hd b' ih =>
    obtain ⟨k0, v0⟩ := hd
    have hnd : k0 ∉ b'.map Prod.fst ∧ NodupKeys b' := by
      simpa [NodupKeys, List.nodup_cons] using hb
    by_cases h : k = k0
    · subst h
      have : hasKey b' k = false := by
        rw [← Bool.not_eq_true, hasKey_iff_mem]
        exact hnd.1
      simp [sumKey, getD, lookupT, sumKey_eq_zero b' k this]
    · simp only [sumKey, if_neg h, Nat.zero_add, getD, lookupT, if_neg h]
      simpa [getD] using ih hnd.2

theorem keys_dinsert (t : CountTable) (k : String) (v : Nat) :
    (dinsert t k v).map Prod.fst =
      if hasKey t k = true then t.map Prod.fst else t.map Prod.fst ++ [k] := by
  induction t with
  | nil => simp [dinsert, hasKey, lookupT]
  | cons hd tl ih =>
    obtain ⟨k0, v0⟩ := hd
    by_cases h : k = k0
    · subst h
      simp [dinsert, hasKey, lookupT]
    · simp only [dinsert, if_neg h, List.map_cons, ih]
      have hck : hasKey ((k0, v0) :: tl) k = hasKey tl k := by
        simp [hasKey, lookupT, h]
      rw [hck]
      split_ifs <;> simp

theorem nodupKeys_dinsert (t : CountTable) (k : String) (v : Nat) (h : NodupKeys t) :
    NodupKeys (dinsert t k v) := by
  unfold NodupKeys at h ⊢
  rw [keys_dinsert]
  cases hk : hasKey t k with
  | true => simpa using h
  | false =>
    have hnk : k ∉ t.map Prod.fst := by
      intro hm
      rw [← hasKey_iff_mem] at hm
      rw [hm] at hk
      exact Bool.noConfusion hk
    simp [List.nodup_append, h, hnk]

theorem nodupKeys_mergeCounts (a b : CountTable) (h : NodupKeys a) :
    NodupKeys (mergeCounts a b) := by
  induction b generalizing a with
  | nil => exact h
  | cons hd b' ih =>
    obtain ⟨k0, v0⟩ := hd
    rw [mergeCounts_cons]
    exact ih _ (nodupKeys_dinsert _ _ _ h)

/-! Characterization of Python's substring operator. -/

theorem listStarts_iff (n : List Char) : ∀ l : List Char,
    (listStarts n l = true ↔ ∃ t, l = n ++ t) := by
  induction n with
  | nil => intro l; simp [listStarts]
  | cons a as ih =>
    intro l
    cases l with
    | nil =>
      simp only [listStarts, List.cons_append]
      constructor
      · intro h; exact Bool.noConfusion h
      · rintro ⟨t, ht⟩; exact List.noConfusion ht
    | cons b bs =>
      simp only [listStarts, Bool.and_eq_true, decide_eq_true_eq, ih bs,
        List.cons_append]
      constructor
      · rintro ⟨hab, t, ht⟩
        exact ⟨t, by rw [hab, ht]⟩
      · rintro ⟨t, ht⟩
        injection ht with h1 h2
        exact ⟨h1.symm, t, h2⟩

theorem listInside_iff (n : List Char) : ∀ l : List Char,
    (listInside n l = true ↔ ∃ p q, l = p ++ n ++ q) := by
  intro l
  induction l with
  | nil =>
    simp only [listInside, List.isEmpty_iff]
    constructor
    · intro h; exact ⟨[], [], by simp [h]⟩
    · rintro ⟨p, q, h⟩
      rcases List.append_eq_nil.mp h.symm with ⟨h1, -⟩
      exact (List.append_eq_nil.mp h1).2
  | cons c rest ih =>
    simp only [listInside, Bool.or_eq_true, listStarts_iff, ih]
    constructor
    · rintro (⟨t, ht⟩ | ⟨p, q, hpq⟩)
      · exact ⟨[], t, by simpa using ht⟩
      · exact ⟨c :: p, q, by simp [hpq]⟩
    · rintro ⟨p, q, hpq⟩
      cases p with
      | nil => exact Or.inl ⟨q, by simpa using hpq⟩
      | cons p0 ps =>
        simp only [List.cons_append, List.append_assoc] at hpq
        injection hpq with h1 h2
        exact Or.inr ⟨ps, q, by simpa [List.append_assoc] using h2⟩

theorem pyIn_iff (a b : String) :
    pyIn a b = true ↔ ∃ p q, b.toList = p ++ a.toList ++ q :=
  listInside_iff a.toList b.toList

/-- Helper for Scenario D: as long as no received message passes the
`in_comm in 'return_data'` test, the worker's event trace contains no
send, whatever else arrives before and after the `exit` command. -/
theorem slave_loop_no_send (counts : CountTable) (ms rest : List Msg)
    (h : ∀ m ∈ ms, slave_step m ≠ .reply) :
    ∀ e ∈ slave_loop counts (ms ++ .str "exit" :: rest), ∀ d t tb, e ≠ .send d t tb := by
  induction ms with
  | nil =>
    intro e he d t tb
    have hstep : slave_step (.str "exit") = .halt 0 := by decide
    simp only [List.nil_append, slave_loop, hstep, List.mem_singleton] at he
    subst he
    exact fun hct => WEvent.noConfusion hct
  | cons m ms' ih =>
    intro e he d t tb
    have hm := h m (by simp)
    cases hs : slave_step m with
    | reply => exact absurd hs hm
    | halt code =>
      simp only [List.cons_append, slave_loop, hs, List.mem_singleton] at he
      subst he
      exact fun hct => WEvent.noConfusion hct
    | skip =>
      simp only [List.cons_append, slave_loop, hs] at he
      exact ih (fun m' hm' => h m' (by simp [hm'])) e he d t tb

/-- C3: the merge engine maps every key present in either input table to
the sum of its counts in the two inputs (default 0), and, up to Python
dict equality, it is associative, commutative, and has the empty table
as identity. -/
theorem merge_algebra (a b c : CountTable)
    (ha : NodupKeys a) (hb : NodupKeys b) (hc : NodupKeys c) :
    (∀ k, hasKey (mergeCounts a b) k = (hasKey a k || hasKey b k)) ∧
    (∀ k, getD (mergeCounts a b) k = getD a k + getD b k) ∧
    dictEq (mergeCounts (mergeCounts a b) c) (mergeCounts a (mergeCounts b c)) ∧
    dictEq (mergeCounts a b) (mergeCounts b a) ∧
    mergeCounts a [] = a := by
  have hgd : ∀ (x y : CountTable), NodupKeys y → ∀ k,
      getD (mergeCounts x y) k = getD x k + getD y k := by
    intro x y hy k
    rw [getD_mergeCounts_sum, sumKey_eq_getD y hy]
  refine ⟨hasKey_mergeCounts a b, hgd a b hb, ?_, ?_, rfl⟩
  · intro k
    rw [lookupT_eq_getD, lookupT_eq_getD, hasKey_mergeCounts, hasKey_mergeCounts,
      hasKey_mergeCounts, hasKey_mergeCounts, hgd _ c hc, hgd a b hb,
      hgd a _ (nodupKeys_mergeCounts b c hb), hgd b c hc, Bool.or_assoc, Nat.add_assoc]
  · intro k
    rw [lookupT_eq_getD, lookupT_eq_getD, hasKey_mergeCounts, hasKey_mergeCounts,
      hgd a b hb, hgd b a ha, Bool.or_comm, Nat.add_comm (getD a k)]

theorem merge_algebra_witness :
    NodupKeys [("x", 1), ("y", 2)] ∧ NodupKeys [("x", 3)] ∧ NodupKeys [("z", 5)] ∧
    ((∀ k, hasKey (mergeCounts [("x", 1), ("y", 2)] [("x", 3)]) k =
        (hasKey [("x", 1), ("y", 2)] k || hasKey [("x", 3)] k)) ∧
     (∀ k, getD (mergeCounts [("x", 1), ("y", 2)] [("x", 3)]) k =
        getD [("x", 1), ("y", 2)] k + getD [("x", 3)] k) ∧
     dictEq (mergeCounts (mergeCounts [("x", 1), ("y", 2)] [("x", 3)]) [("z", 5)])
       (mergeCounts [("x", 1), ("y", 2)] (mergeCounts [("x", 3)] [("z", 5)])) ∧
     dictEq (mergeCounts [("x", 1), ("y", 2)] [("x", 3)])
       (mergeCounts [("x", 3)] [("x", 1), ("y", 2)]) ∧
     mergeCounts [("x", 1), ("y", 2)] [] = [("x", 1), ("y", 2)]) :=
  ⟨by unfold NodupKeys; decide, by unfold NodupKeys; decide, by unfold NodupKeys; decide,
   merge_algebra _ _ _ (by unfold NodupKeys; decide) (by unfold NodupKeys; decide)
     (by unfold NodupKeys; decide)⟩

/-- C9: the worker's command dispatch is substring containment, not
equality: a received string c triggers the data reply exactly when c is
a contiguous substring of `return_data` (the empty string included),
triggers termination exactly when it is not such a substring but is a
contiguous substring of `exit`, and is otherwise ignored, leaving the
loop waiting on the next receive. -/
theorem slave_dispatch_substring (c : String) :
    (slave_step (.str c) = .reply ↔
      ∃ p q, "return_data".toList = p ++ c.toList ++ q) ∧
    (slave_step (.str c) = .halt 0 ↔
      (¬∃ p q, "return_data".toList = p ++ c.toList ++ q) ∧
      ∃ p q, "exit".toList = p ++ c.toList ++ q) ∧
    (slave_step (.str c) = .skip ↔
      (¬∃ p q, "return_data".toList = p ++ c.toList ++ q) ∧
      ¬∃ p q, "exit".toList = p ++ c.toList ++ q) := by
  rw [← pyIn_iff c "return_data", ← pyIn_iff c "exit"]
  unfold slave_step
  by_cases h1 : pyIn c "return_data" = true
  · simp [h1]
  · by_cases h2 : pyIn c "exit" = true
    · simp [h1, h2]
    · simp [h1, h2]

theorem slave_dispatch_substring_witness :
    slave_step (.str "") = .reply ∧ slave_step (.str "xi") = .halt 0 ∧
    slave_step (.str "qq") = .skip :=
  have hnr : ¬∃ p q, "return_data".toList = p ++ "xi".toList ++ q := fun hx =>
    absurd ((pyIn_iff "xi" "return_data").mpr hx) (by decide)
  have hnr2 : ¬∃ p q, "return_data".toList = p ++ "qq".toList ++ q := fun hx =>
    absurd ((pyIn_iff "qq" "return_data").mpr hx) (by decide)
  have hne : ¬∃ p q, "exit".toList = p ++ "qq".toList ++ q := fun hx =>
    absurd ((pyIn_iff "qq" "exit").mpr hx) (by decide)
  ⟨((slave_dispatch_substring "").1).mpr ⟨[], "return_data".toList, by decide⟩,
   ((slave_dispatch_substring "xi").2.1).mpr ⟨hnr, ['e'], ['t'], by decide⟩,
   ((slave_dispatch_substring "qq").2.2).mpr ⟨hnr2, hne⟩⟩

/-- C6: a worker awaiting commands that receives `return_data` logs the
number of keys of its table, sends the table to rank 0 tagged with the
coordinator's rank, and keeps awaiting commands; on `exit` it terminates
immediately with success status; and a worker that receives `exit`
before ever receiving `return_data` sends no table at all. -/
theorem slave_command_protocol (counts : CountTable) (msgs rest ms : List Msg)
    (h : ∀ m ∈ ms, slave_step m ≠ .reply) :
    slave_loop counts (.str "return_data" :: msgs) =
      .log counts.length :: .send MASTER_RANK MASTER_RANK counts :: slave_loop counts msgs ∧
    slave_loop counts (.str "exit" :: msgs) = [.exited 0] ∧
    ∀ e ∈ slave_loop counts (ms ++ .str "exit" :: rest), ∀ d t tb, e ≠ .send d t tb := by
  refine ⟨?_, ?_, slave_loop_no_send counts ms rest h⟩
  · have hstep : slave_step (.str "return_data") = .reply := by decide
    simp [slave_loop, hstep]
  · have hstep : slave_step (.str "exit") = .halt 0 := by decide
    simp [slave_loop, hstep]

theorem slave_command_protocol_witness :
    slave_loop [("k", 2)] (.str "return_data" :: []) =
      .log (List.length [("k", 2)]) ::
        .send MASTER_RANK MASTER_RANK [("k", 2)] :: slave_loop [("k", 2)] [] ∧
    slave_loop [("k", 2)] (.str "exit" :: []) = [.exited 0] ∧
    ∀ e ∈ slave_loop [("k", 2)] ([Msg.num 1] ++ .str "exit" :: []),
      ∀ d t tb, e ≠ .send d t tb :=
  slave_command_protocol [("k", 2)] [] [] [Msg.num 1] (by decide)

/-- C10: a worker that receives a non-string value on its command
channel raises no error and sends nothing: the message is silently
discarded, the loop re-enters the blocking receive, and the worker's
table is unchanged. -/
theorem slave_nonstring_skip (counts : CountTable) (m : Msg) (msgs : List Msg)
    (h : ∀ s, m ≠ .str s) :
    slave_step m = .skip ∧ slave_loop counts (m :: msgs) = slave_loop counts msgs := by
  cases m with
  | str s => exact absurd rfl (h s)
  | table t => exact ⟨rfl, rfl⟩
  | num n => exact ⟨rfl, rfl⟩

theorem slave_nonstring_skip_witness :
    slave_step (Msg.num 7) = .skip ∧
    slave_loop [] (Msg.num 7 :: []) = slave_loop [] [] :=
  slave_nonstring_skip [] (Msg.num 7) [] (fun _ hs => Msg.noConfusion hs)

/-! Loops that append one element per iteration are maps over their index
range. -/

theorem foldl_push {α β : Type} (f : β → α) (l : List β) (acc : List α) :
    l.foldl (fun evs i => evs ++ [f i]) acc = acc ++ l.map f := by
  induction l generalizing acc with
  | nil => simp
  | cons x xs ih => simp [List.foldl_cons, ih]

theorem foldl_push2 {α β γ : Type} (f : β → α) (g : β → γ) (l : List β)
    (a1 : List α) (a2 : List γ) :
    l.foldl (fun p i => (p.1 ++ [f i], p.2 ++ [g i])) (a1, a2) =
      (a1 ++ l.map f, a2 ++ l.map g) := by
  induction l generalizing a1 a2 with
  | nil => simp
  | cons x xs ih => simp [List.foldl_cons, ih]

theorem marshall_tweet_eq (n : Nat) (resp : Nat → CountTable) :
    marshall_tweet n resp =
      ((List.range (n - 1)).map (fun i => MEvent.send (i + 1) (i + 1) MMsg.returnData) ++
        (List.range (n - 1)).map (fun i => MEvent.recv (i + 1) MASTER_RANK),
       (List.range (n - 1)).map (fun i => resp (i + 1))) := by
  unfold marshall_tweet
  rw [foldl_push, foldl_push2]
  simp

/-- C5: whenever the coordinator's run completes, its message trace is
exactly: `return_data` sent to every rank 1..N-1, then a receive from
each of those ranks in loop order, then `exit` sent to each of them; the
final table folds the received tables into the local one in that same
rank order; and for N = 1 the trace is empty. -/
theorem master_trace_order (n : Nat) (resp : Nat → CountTable) (stype squery : String)
    (stream : List String) (occ : CountTable) (trace : List MEvent)
    (h : master_tweet_processor n resp stype squery stream = .ok (occ, trace)) :
    (n = 1 → trace = []) ∧
    (1 < n → trace =
      (List.range (n - 1)).map (fun i => MEvent.send (i + 1) (i + 1) MMsg.returnData) ++
      (List.range (n - 1)).map (fun i => MEvent.recv (i + 1) MASTER_RANK) ++
      (List.range (n - 1)).map (fun i => MEvent.send (i + 1) (i + 1) MMsg.exitCmd)) ∧
    ∃ occ0, process_tweets MASTER_RANK n stype squery stream = .ok occ0 ∧
      occ = ((List.range (n - 1)).map (fun i => resp (i + 1))).foldl mergeCounts occ0 := by
  cases hp : process_tweets MASTER_RANK n stype squery stream with
  | error e =>
    rw [master_tweet_processor, hp] at h
    exact Except.noConfusion h
  | ok occ0 =>
    rw [master_tweet_processor, hp] at h
    dsimp only at h
    by_cases hn : 1 < n
    · rw [if_pos hn] at h
      simp only [marshall_tweet_eq, foldl_push, List.nil_append,
        Except.ok.injEq, Prod.mk.injEq] at h
      obtain ⟨hocc, htr⟩ := h
      exact ⟨fun h1 => absurd h1 (by omega), fun _ => htr.symm, occ0, rfl, hocc.symm⟩
    · rw [if_neg hn] at h
      simp only [Except.ok.injEq, Prod.mk.injEq] at h
      obtain ⟨hocc, htr⟩ := h
      have hn1 : n - 1 = 0 := by omega
      refine ⟨fun _ => htr.symm, fun h1 => absurd h1 hn, occ0, rfl, ?_⟩
      rw [hn1]
      simpa using hocc.symm

theorem master_trace_order_witness :
    ((2 : Nat) = 1 →
      ([MEvent.send 1 1 MMsg.returnData, MEvent.recv 1 MASTER_RANK,
        MEvent.send 1 1 MMsg.exitCmd] : List MEvent) = []) ∧
    (1 < 2 →
      ([MEvent.send 1 1 MMsg.returnData, MEvent.recv 1 MASTER_RANK,
        MEvent.send 1 1 MMsg.exitCmd] : List MEvent) =
      (List.range (2 - 1)).map (fun i => MEvent.send (i + 1) (i + 1) MMsg.returnData) ++
      (List.range (2 - 1)).map (fun i => MEvent.recv (i + 1) MASTER_RANK) ++
      (List.range (2 - 1)).map (fun i => MEvent.send (i + 1) (i + 1) MMsg.exitCmd)) ∧
    ∃ occ0, process_tweets MASTER_RANK 2 "mentions" "" [] = .ok occ0 ∧
      ([("a", 1)] : CountTable) =
        ((List.range (2 - 1)).map
          (fun i => (fun _ => ([("a", 1)] : CountTable)) (i + 1))).foldl mergeCounts occ0 :=
  master_trace_order 2 (fun _ => [("a", 1)]) "mentions" "" [] [("a", 1)]
    [MEvent.send 1 1 MMsg.returnData, MEvent.recv 1 MASTER_RANK,
      MEvent.send 1 1 MMsg.exitCmd] rfl

/-- C8: tweet_to_json never yields a parsed record for a string payload:
json.load applied to a str raises AttributeError, which is not a
ValueError, and therefore escapes the `except ValueError` handler of
process_tweets, aborting the run at the first owned record. -/
theorem tweet_to_json_never_parses (s : String) :
    tweet_to_json s = .error .attributeError ∧
    (∀ t, tweet_to_json s ≠ .ok t) ∧
    ∀ n stype squery rest, 1 ≤ n →
      process_tweets 0 n stype squery (s :: rest) = .error .attributeError := by
  refine ⟨rfl, fun t h => Except.noConfusion h, ?_⟩
  intro n stype squery rest _
  simp [process_tweets, process_tweets_go, Nat.zero_mod, decodeVar, tweet_to_json,
    json_load_str]

theorem tweet_to_json_never_parses_witness :
    (1 ≤ 1) ∧ tweet_to_json "x" = .error .attributeError ∧
    process_tweets 0 1 "mentions" "" ["x"] = .error .attributeError :=
  ⟨by decide, (tweet_to_json_never_parses "x").1,
   (tweet_to_json_never_parses "x").2.2 1 "mentions" "" [] (by decide)⟩

/-- C1 evaluation at the failing input: with two processes and a single
record (index 0, belonging to rank 0), rank 1 crashes with the unbound
local `tweet` (the decode block sits outside the partition test), and
rank 0 crashes decoding its own record (json.load on a str), so neither
rank counts the record as the claim requires. -/
theorem process_tweets_partition_bug :
    process_tweets 1 2 "mentions" "" ["a"] = .error .nameError ∧
    process_tweets 0 2 "mentions" "" ["a"] = .error .attributeError :=
  ⟨rfl, rfl⟩

/-- C2 evaluation at the failing input: on a nonempty stream both the
distributed run and the single-process run abort with AttributeError
before any CountTable exists, so the coordinator never holds a merged
table to compare. -/
theorem master_no_table_bug :
    master_tweet_processor 2 (fun _ => []) "mentions" "" ["x"] = .error .attributeError ∧
    master_tweet_processor 1 (fun _ => []) "mentions" "" ["x"] = .error .attributeError :=
  ⟨rfl, rfl⟩

/-- C4 evaluation at the failing input: a partition consisting of one
malformed record is fatal — the decode failure is an AttributeError that
the `except ValueError` handler does not catch — whereas with the record
absent the run returns the empty table. -/
theorem malformed_record_fatal_bug :
    process_tweets 0 1 "mentions" "" ["nonsense"] = .error .attributeError ∧
    process_tweets 0 1 "mentions" "" [] = .ok [] :=
  ⟨rfl, rfl⟩

/-! Characterization of the per-record counting tables. -/

theorem lookupT_foldl_count (occs : List String) (acc : CountTable) (k : String) :
    lookupT (occs.foldl (fun cs o => dinsert cs o (getD cs o + 1)) acc) k =
      if countOcc occs k = 0 then lookupT acc k
      else some (getD acc k + countOcc occs k) := by
  induction occs generalizing acc with
  | nil => simp [countOcc]
  | cons o rest ih =>
    rw [List.foldl_cons, ih]
    by_cases h : o = k
    · subst h
      by_cases hc : countOcc rest o = 0
      · simp [countOcc, hc, lookupT_dinsert, getD]
      · simp [countOcc, getD_dinsert, lookupT_dinsert, hc, Nat.add_assoc]
    · have h' : ¬(k = o) := fun hh => h hh.symm
      simp [countOcc, h, h', getD_dinsert, lookupT_dinsert]

theorem lookupT_count_regex (t : Tweet) (r : Regex) (k : String) :
    lookupT (count_regex t r) k =
      if countOcc (findall r t.text) k = 0 then none
      else some (countOcc (findall r t.text) k) := by
  unfold count_regex
  rw [lookupT_foldl_count]
  simp [getD, lookupT]

theorem grabTok_word (l : List Char) : ∀ c ∈ grabTok l, isWordChar c = true := by
  induction l with
  | nil => intro c hc; exact absurd hc (List.not_mem_nil c)
  | cons a rest ih =>
    intro c hc
    by_cases h : isWordChar a = true
    · rw [grabTok, if_pos h] at hc
      rcases List.mem_cons.mp hc with h1 | h1
      · rw [h1]; exact h
      · exact ih c h1
    · rw [grabTok, if_neg h] at hc
      exact absurd hc (List.not_mem_nil c)

theorem findTokensGo_shape (sym : Char) (fuel : Nat) : ∀ l : List Char,
    ∀ m ∈ findTokensGo sym fuel l,
      ∃ tok, tok ≠ [] ∧ (∀ c ∈ tok, isWordChar c = true) ∧
        m = String.mk (sym :: tok) := by
  induction fuel with
  | zero => intro l m hm; exact absurd hm (List.not_mem_nil m)
  | succ fuel ih =>
    intro l m hm
    cases l with
    | nil => exact absurd hm (List.not_mem_nil m)
    | cons c rest =>
      by_cases hc : c = sym
      · rw [findTokensGo, if_pos hc] at hm
        by_cases hg : grabTok rest = []
        · rw [if_pos hg] at hm
          exact ih rest m hm
        · rw [if_neg hg] at hm
          rcases List.mem_cons.mp hm with h1 | h1
          · exact ⟨grabTok rest, hg, grabTok_word rest, h1⟩
          · exact ih (restAfterTok rest) m h1
      · rw [findTokensGo, if_neg hc] at hm
        exact ih rest m hm

theorem findWordGo_eq_query (q : List Char) (fuel : Nat) : ∀ (prev : Option Char)
    (l : List Char), ∀ m ∈ findWordGo q fuel prev l, m = String.mk q := by
  induction fuel with
  | zero => intro prev l m hm; exact absurd hm (List.not_mem_nil m)
  | succ fuel ih =>
    intro prev l m hm
    cases l with
    | nil => exact absurd hm (List.not_mem_nil m)
    | cons c rest =>
      by_cases hcond : (!q.isEmpty && boundaryB prev && listStarts q (c :: rest)
          && tailOK (List.drop q.length (c :: rest))) = true
      · rw [findWordGo, if_pos hcond] at hm
        rcases List.mem_cons.mp hm with h1 | h1
        · exact h1
        · exact ih _ _ m h1
      · rw [findWordGo, if_neg hcond] at hm
        exact ih _ _ m hm

theorem foldl_count_const (k : String) : ∀ (occs : List String),
    (∀ m ∈ occs, m = k) → ∀ c : Nat,
      occs.foldl (fun cs o => dinsert cs o (getD cs o + 1)) [(k, c)] =
        [(k, c + occs.length)] := by
  intro occs
  induction occs with
  | nil => intro _ c; simp
  | cons o rest ih =>
    intro h c
    have ho : o = k := h o (by simp)
    subst ho
    rw [List.foldl_cons]
    have hstep : dinsert [(o, c)] o (getD [(o, c)] o + 1) = [(o, c + 1)] := by
      simp [dinsert, getD, lookupT]
    rw [hstep, ih (fun m hm => h m (by simp [hm])) (c + 1)]
    have hlen : c + 1 + List.length rest = c + List.length (o :: rest) := by
      simp [List.length_cons]
      omega
    rw [hlen]

theorem count_regex_wordQuery (t : Tweet) (q : String) :
    count_regex t (Regex.wordQuery q) =
      if (findall (Regex.wordQuery q) t.text).length = 0 then []
      else [(q, (findall (Regex.wordQuery q) t.text).length)] := by
  have hall : ∀ m ∈ findall (Regex.wordQuery q) t.text, m = String.mk q.toList :=
    fun m hm => findWordGo_eq_query q.toList t.text.toList.length none t.text.toList m hm
  have hmk : String.mk q.toList = q := rfl
  unfold count_regex
  cases hfa : findall (Regex.wordQuery q) t.text with
  | nil => simp
  | cons m rest =>
    have hm : m = q := by
      rw [← hmk]
      exact hall m (by rw [hfa]; exact List.mem_cons_self m rest)
    have hrest : ∀ x ∈ rest, x = q := by
      intro x hx
      rw [← hmk]
      exact hall x (by rw [hfa]; exact List.mem_cons_of_mem m hx)
    subst hm
    rw [List.foldl_cons]
    have hstep : dinsert [] m (getD [] m + 1) = [(m, 1)] := by
      simp [dinsert, getD, lookupT]
    rw [hstep, foldl_count_const m rest hrest 1]
    simp [List.length_cons, Nat.add_comm]

/-- C7 counterexample: mode `topics` is not a Python substring of any of
the three dispatch strings checked by process_tweet, so no counting
branch is selected and the code faults reading the unbound local
`results` instead of producing a hashtag table. -/
theorem process_tweet_topics_cex :
    process_tweet [] "topics" "hello" ⟨"a #b c"⟩ = .error .nameError ∧
    process_tweet [] "topics" "hello" ⟨"a #b c"⟩ ≠
      .ok (mergeCounts [] (trending_topics ⟨"a #b c"⟩)) :=
  ⟨rfl, fun h => Except.noConfusion h⟩

/-- C7 (amended): mode `mentions` selects mention counting and yields
the table sending each `@`-token of the text to its number of
occurrences; mode `topic` (not `topics`, which faults) does the same for
`#`-tokens; and mode `string_search` with a nonempty all-word-character
query (the code interpolates the query into the regex unescaped, so
only such queries are matched literally) yields a table with at most one
key, the query itself, counted once per word-boundary match. -/
theorem process_tweet_mode_selection (counts : CountTable) (squery : String)
    (tweet : Tweet) (_hq1 : squery.toList ≠ [])
    (_hq2 : ∀ c ∈ squery.toList, isWordChar c = true) :
    (process_tweet counts "mentions" squery tweet =
       .ok (mergeCounts counts (user_mentions tweet)) ∧
     ∀ k, lookupT (user_mentions tweet) k =
       (if countOcc (findall MENTION_REGEX tweet.text) k = 0 then none
        else some (countOcc (findall MENTION_REGEX tweet.text) k))) ∧
    (∀ m ∈ findall MENTION_REGEX tweet.text,
      ∃ tok, tok ≠ [] ∧ (∀ c ∈ tok, isWordChar c = true) ∧
        m = String.mk ('@' :: tok)) ∧
    (process_tweet counts "topic" squery tweet =
       .ok (mergeCounts counts (trending_topics tweet)) ∧
     ∀ k, lookupT (trending_topics tweet) k =
       (if countOcc (findall TOPIC_REGEX tweet.text) k = 0 then none
        else some (countOcc (findall TOPIC_REGEX tweet.text) k))) ∧
    (∀ m ∈ findall TOPIC_REGEX tweet.text,
      ∃ tok, tok ≠ [] ∧ (∀ c ∈ tok, isWordChar c = true) ∧
        m = String.mk ('#' :: tok)) ∧
    (process_tweet counts "string_search" squery tweet =
       .ok (mergeCounts counts (count_regex tweet (Regex.wordQuery squery))) ∧
     count_regex tweet (Regex.wordQuery squery) =
       (if (findall (Regex.wordQuery squery) tweet.text).length = 0 then []
        else [(squery, (findall (Regex.wordQuery squery) tweet.text).length)])) :=
  ⟨⟨rfl, fun k => lookupT_count_regex tweet MENTION_REGEX k⟩,
   fun m hm => findTokensGo_shape '@' tweet.text.toList.length tweet.text.toList m hm,
   ⟨rfl, fun k => lookupT_count_regex tweet TOPIC_REGEX k⟩,
   fun m hm => findTokensGo_shape '#' tweet.text.toList.length tweet.text.toList m hm,
   ⟨rfl, count_regex_wordQuery tweet squery⟩⟩

theorem process_tweet_mode_selection_witness :
    ("hello".toList ≠ []) ∧ (∀ c ∈ "hello".toList, isWordChar c = true) ∧
    process_tweet [] "string_search" "hello" ⟨"oh hello hello world"⟩ =
      .ok (mergeCounts []
        (count_regex ⟨"oh hello hello world"⟩ (Regex.wordQuery "hello"))) ∧
    count_regex ⟨"oh hello hello world"⟩ (Regex.wordQuery "hello") = [("hello", 2)] :=
  ⟨by decide, by decide,
   (process_tweet_mode_selection [] "hello" ⟨"oh hello hello world"⟩
     (by decide) (by decide)).2.2.2.2.1,
   ((process_tweet_mode_selection [] "hello" ⟨"oh hello hello world"⟩
     (by decide) (by decide)).2.2.2.2.2).trans (by decide)⟩

end TuteDemo
